import Mathlib

/-!
Verification of the LaTeX-to-MathML extraction pipeline of `image2math`
(the `generateMathML` routine in `src/components/ResultDisplay.tsx`).

The embedding below follows the source line by line:

* the scanner is the global-regex loop
  `while ((match = latexRegex.exec(markdown)) !== null)` with
  `latexRegex = /\$\$([\s\S]*?)\$\$|\$((?!\$)[\s\S]*?)\$/g`;
* per match the code computes `latex = match[1] || match[2]` and
  `isBlock = !!match[1]` (JS falsiness: the empty string and `undefined`
  are falsy), then calls `katex.renderToString(latex, {displayMode: isBlock, ...})`
  inside a per-iteration `try`/`catch` whose handler performs a
  `console.warn`;
* on success the first `<math ... </math>` fragment is located, parsed by
  `DOMParser`, rewritten (remove every `annotation` element, splice every
  `semantics` element, flatten a sole top-level `mrow`), re-serialized,
  and appended to the output with a blank-line separator;
* the final result is `output || "No mathematical formulas detected."`,
  and a missing `window.katex` short-circuits to `"KaTeX library not found."`.

The external collaborators (KaTeX, `DOMParser`, `XMLSerializer`) are
modelled at their interface: the renderer is an opaque function from the
latex argument and display flag to an outcome (throw, markup with no
`<math>` root, or markup whose extracted `<math>` element parses to a
given element tree), and serialization is a deterministic tree walk.
JS strings are modelled as Lean `String`, with the regex scan performed
on the underlying character list.  The `console.warn` calls performed by
the `catch` handler are modelled as the second component of the result.
-/

namespace Image2Math

/-! ## The scanner -/

/-- One match of the global regex `/\$\$([\s\S]*?)\$\$|\$((?!\$)[\s\S]*?)\$/g`:
`block p` is a match of the first alternative (capture group 1 = `p`,
group 2 = `undefined`); `inl p` is a match of the second alternative
(group 1 = `undefined`, group 2 = `p`). -/
inductive RegexMatch where
  | block (payload : List Char)
  | inl (payload : List Char)
deriving DecidableEq, Repr

/-- Split a character list at the first `'$'`: `splitDollar l = some (p, a)`
iff `l = p ++ '$' :: a` with no `'$'` in `p`.  This is the lazy completion
`[\s\S]*?\$` of the inline alternative. -/
def splitDollar : List Char → Option (List Char × List Char)
  | [] => none
  | c :: rest =>
    if c = '$' then some ([], rest)
    else
      match splitDollar rest with
      | some (p, a) => some (c :: p, a)
      | none => none

/-- Split a character list at the first occurrence of two adjacent `'$'`:
the lazy completion `[\s\S]*?\$\$` of the block alternative. -/
def splitDollar2 : List Char → Option (List Char × List Char)
  | [] => none
  | [_] => none
  | c1 :: c2 :: rest =>
    if c1 = '$' ∧ c2 = '$' then some ([], rest)
    else
      match splitDollar2 (c2 :: rest) with
      | some (p, a) => some (c1 :: p, a)
      | none => none

/-- The regex scan, fuelled for structural recursion (the fuel is
instantiated with the length of the scanned list, which always suffices).
At each position the block alternative is tried first; the inline
alternative requires its first content character to differ from `'$'`
(the `(?!\$)` lookahead) and, the closing delimiter being lazy, its
payload ends at the first following `'$'`. -/
def scanFuel : Nat → List Char → List RegexMatch
  | 0, _ => []
  | _ + 1, [] => []
  | fuel + 1, c :: rest =>
    if c = '$' then
      match rest with
      | [] => []
      | c2 :: rest2 =>
        if c2 = '$' then
          match splitDollar2 rest2 with
          | some (p, a) => RegexMatch.block p :: scanFuel fuel a
          | none => scanFuel fuel rest
        else
          match splitDollar (c2 :: rest2) with
          | some (p, a) => RegexMatch.inl p :: scanFuel fuel a
          | none => scanFuel fuel rest
    else scanFuel fuel rest

/-- All matches of the global regex against a character list, in
left-to-right order: the `exec` loop of `generateMathML`. -/
def scanList (l : List Char) : List RegexMatch :=
  scanFuel l.length l

/-- `latex = match[1] || match[2]`.  For a block match with empty capture
the empty string is falsy, so the JS code falls through to the inline
capture, which is `undefined` (modelled as `none`). -/
def latexOf : RegexMatch → Option (List Char)
  | .block p => if p = [] then none else some p
  | .inl p => some p

/-- `isBlock = !!match[1]`: truthiness of the block capture group
(`undefined` and the empty string are falsy). -/
def isBlockOf : RegexMatch → Bool
  | .block p => p ≠ []
  | .inl _ => false

/-! ### Scanner lemmas -/

theorem splitDollar_length : ∀ {l p a}, splitDollar l = some (p, a) → a.length < l.length := by
  intro l
  induction l with
  | nil => intro p a h; simp [splitDollar] at h
  | cons c rest ih =>
    intro p a h
    by_cases hc : c = '$'
    · simp [splitDollar, hc] at h
      obtain ⟨rfl, rfl⟩ := h
      simp
    · simp [splitDollar, hc] at h
      rcases hsplit : splitDollar rest with _ | ⟨p', a'⟩
      · rw [hsplit] at h; simp at h
      · rw [hsplit] at h
        simp at h
        obtain ⟨rfl, rfl⟩ := h
        have := ih hsplit
        simp
        omega

theorem splitDollar_eq : ∀ {l p a}, splitDollar l = some (p, a) → l = p ++ '$' :: a := by
  intro l
  induction l with
  | nil => intro p a h; simp [splitDollar] at h
  | cons c rest ih =>
    intro p a h
    by_cases hc : c = '$'
    · simp [splitDollar, hc] at h
      obtain ⟨rfl, rfl⟩ := h
      simp [hc]
    · simp [splitDollar, hc] at h
      rcases hsplit : splitDollar rest with _ | ⟨p', a'⟩
      · rw [hsplit] at h; simp at h
      · rw [hsplit] at h
        simp at h
        obtain ⟨rfl, rfl⟩ := h
        simp [ih hsplit]

theorem splitDollar_no_dollar : ∀ {l p a}, splitDollar l = some (p, a) → '$' ∉ p := by
  intro l
  induction l with
  | nil => intro p a h; simp [splitDollar] at h
  | cons c rest ih =>
    intro p a h
    by_cases hc : c = '$'
    · simp [splitDollar, hc] at h
      obtain ⟨rfl, rfl⟩ := h
      simp
    · simp [splitDollar, hc] at h
      rcases hsplit : splitDollar rest with _ | ⟨p', a'⟩
      · rw [hsplit] at h; simp at h
      · rw [hsplit] at h
        simp at h
        obtain ⟨rfl, rfl⟩ := h
        intro hmem
        rcases List.mem_cons.mp hmem with h1 | h2
        · exact hc h1.symm
        · exact ih hsplit h2

theorem splitDollar2_length : ∀ {l p a}, splitDollar2 l = some (p, a) → a.length < l.length := by
  intro l
  induction l with
  | nil => intro p a h; simp [splitDollar2] at h
  | cons c1 rest ih =>
    intro p a h
    match rest with
    | [] => simp [splitDollar2] at h
    | c2 :: rest2 =>
      by_cases hc : c1 = '$' ∧ c2 = '$'
      · simp [splitDollar2, hc] at h
        obtain ⟨rfl, rfl⟩ := h
        simp
        omega
      · simp [splitDollar2, hc] at h
        rcases hsplit : splitDollar2 (c2 :: rest2) with _ | ⟨p', a'⟩
        · rw [hsplit] at h; simp at h
        · rw [hsplit] at h
          simp at h
          obtain ⟨rfl, rfl⟩ := h
          have := ih hsplit
          simp at this ⊢
          omega

theorem splitDollar2_eq : ∀ {l p a}, splitDollar2 l = some (p, a) → l = p ++ '$' :: '$' :: a := by
  intro l
  induction l with
  | nil => intro p a h; simp [splitDollar2] at h
  | cons c1 rest ih =>
    intro p a h
    match rest with
    | [] => simp [splitDollar2] at h
    | c2 :: rest2 =>
      by_cases hc : c1 = '$' ∧ c2 = '$'
      · simp [splitDollar2, hc] at h
        obtain ⟨rfl, rfl⟩ := h
        simp [hc.1, hc.2]
      · simp [splitDollar2, hc] at h
        rcases hsplit : splitDollar2 (c2 :: rest2) with _ | ⟨p', a'⟩
        · rw [hsplit] at h; simp at h
        · rw [hsplit] at h
          simp at h
          obtain ⟨rfl, rfl⟩ := h
          simpa using ih hsplit

/-- On a payload free of `'$'`, the lazy block closing delimiter matches the
first `"$$"` that follows it. -/
theorem splitDollar2_append {p : List Char} (t : List Char) (hp : '$' ∉ p) :
    splitDollar2 (p ++ '$' :: '$' :: t) = some (p, t) := by
  induction p with
  | nil => simp [splitDollar2]
  | cons c p ih =>
    have hc : c ≠ '$' := fun h => hp (by simp [h])
    have hp' : '$' ∉ p := fun h => hp (by simp [h])
    match p, ih hp' with
    | [], ih' =>
      simp only [List.nil_append] at ih' ⊢
      simp [splitDollar2, hc, ih']
    | c2 :: p2, ih' =>
      simp only [List.cons_append] at ih' ⊢
      simp [splitDollar2, hc, ih']

/-- The fuelled scan is independent of the fuel as soon as the fuel covers
the length of the scanned list. -/
theorem scanFuel_congr : ∀ (f1 f2 : Nat) (l : List Char),
    l.length ≤ f1 → l.length ≤ f2 → scanFuel f1 l = scanFuel f2 l := by
  intro f1
  induction f1 with
  | zero =>
    intro f2 l h1 _
    have : l = [] := List.length_eq_zero.mp (Nat.le_zero.mp h1)
    subst this
    cases f2 <;> simp [scanFuel]
  | succ f1 ih =>
    intro f2 l h1 h2
    match l with
    | [] => cases f2 <;> simp [scanFuel]
    | c :: rest =>
      match f2, h2 with
      | f2 + 1, h2 =>
        simp only [List.length_cons] at h1 h2
        by_cases hc : c = '$'
        · match rest with
          | [] => simp [scanFuel, hc]
          | c2 :: rest2 =>
            simp only [List.length_cons] at h1 h2
            by_cases hc2 : c2 = '$'
            · rcases hsplit : splitDollar2 rest2 with _ | ⟨p, a⟩
              · simp only [scanFuel, hc, hc2, hsplit, if_true]
                exact ih f2 ('$' :: rest2) (by simp; omega) (by simp; omega)
              · have hlen := splitDollar2_length hsplit
                simp only [scanFuel, hc, hc2, hsplit, if_true]
                simp only [List.cons.injEq, true_and]
                exact ih f2 a (by omega) (by omega)
            · rcases hsplit : splitDollar (c2 :: rest2) with _ | ⟨p, a⟩
              · simp only [scanFuel, hc, hsplit, if_true, if_neg hc2]
                exact ih f2 (c2 :: rest2) (by simp; omega) (by simp; omega)
              · have hlen := splitDollar_length hsplit
                simp only [List.length_cons] at hlen
                simp only [scanFuel, hc, hsplit, if_true, if_neg hc2]
                simp only [List.cons.injEq, true_and]
                exact ih f2 a (by omega) (by omega)
        · simp only [scanFuel, if_neg hc]
          exact ih f2 rest (by omega) (by omega)

theorem scanList_nil : scanList [] = [] := rfl

theorem scanList_cons_ne {c : Char} (rest : List Char) (hc : c ≠ '$') :
    scanList (c :: rest) = scanList rest := by
  simp [scanList, List.length_cons, scanFuel, hc]

/-- Unfolding of the scan at a block match: when the text starts with `"$$"`
and a closing `"$$"` exists, the block alternative matches first and the
scan resumes after the closing delimiter. -/
theorem scanList_block {rest2 p a : List Char} (hsplit : splitDollar2 rest2 = some (p, a)) :
    scanList ('$' :: '$' :: rest2) = RegexMatch.block p :: scanList a := by
  have hlen := splitDollar2_length hsplit
  have h1 : scanList ('$' :: '$' :: rest2) = RegexMatch.block p :: scanFuel (rest2.length + 1) a := by
    simp [scanList, scanFuel, hsplit]
  rw [h1, scanFuel_congr (rest2.length + 1) a.length a (by omega) (by omega)]
  rfl

/-- Unfolding of the scan at an inline match: a single `'$'` followed by a
non-`'$'` character and a later closing `'$'` produces an inline match. -/
theorem scanList_inl {c2 : Char} {rest2 p a : List Char} (hc2 : c2 ≠ '$')
    (hsplit : splitDollar (c2 :: rest2) = some (p, a)) :
    scanList ('$' :: c2 :: rest2) = RegexMatch.inl p :: scanList a := by
  have hlen := splitDollar_length hsplit
  simp only [List.length_cons] at hlen
  have h1 : scanList ('$' :: c2 :: rest2) = RegexMatch.inl p :: scanFuel (rest2.length + 1) a := by
    simp [scanList, scanFuel, hc2, hsplit]
  rw [h1, scanFuel_congr (rest2.length + 1) a.length a (by omega) (by omega)]
  rfl

/-- Every inline match produced by the fuelled scan has a non-empty payload
that contains no `'$'`: the `(?!\$)` lookahead rules out an immediate
closing delimiter and the lazy `[\s\S]*?` stops at the first `'$'`. -/
theorem scanFuel_inl_payload : ∀ (fuel : Nat) (l p : List Char),
    RegexMatch.inl p ∈ scanFuel fuel l → p ≠ [] ∧ '$' ∉ p := by
  intro fuel
  induction fuel with
  | zero => intro l p h; simp [scanFuel] at h
  | succ fuel ih =>
    intro l p h
    match l with
    | [] => simp [scanFuel] at h
    | c :: rest =>
      by_cases hc : c = '$'
      · match rest with
        | [] => simp [scanFuel, hc] at h
        | c2 :: rest2 =>
          by_cases hc2 : c2 = '$'
          · rcases hsplit : splitDollar2 rest2 with _ | ⟨p', a⟩
            · simp only [scanFuel, hc, hc2, hsplit, if_true] at h
              exact ih _ _ h
            · simp only [scanFuel, hc, hc2, hsplit, if_true] at h
              rcases List.mem_cons.mp h with h1 | h2
              · simp at h1
              · exact ih _ _ h2
          · rcases hsplit : splitDollar (c2 :: rest2) with _ | ⟨p', a⟩
            · simp only [scanFuel, hc, hsplit, if_true, if_neg hc2] at h
              exact ih _ _ h
            · simp only [scanFuel, hc, hsplit, if_true, if_neg hc2] at h
              rcases List.mem_cons.mp h with h1 | h2
              · simp at h1
                subst h1
                constructor
                · have := splitDollar_eq hsplit
                  intro hnil
                  subst hnil
                  simp at this
                  exact hc2 this.1
                · exact splitDollar_no_dollar hsplit
              · exact ih _ _ h2
      · simp only [scanFuel, if_neg hc] at h
        exact ih _ _ h

/-! ## The MathML element tree

`DOMParser.parseFromString(mathMatch[0], "text/xml")` produces a document
whose `documentElement` is an element tree; KaTeX MathML output consists
of elements and text nodes only, so a node is either an element (tag,
attributes in document order, ordered child nodes) or a text node. -/

inductive Node where
  | elem (tag : String) (attrs : List (String × String)) (children : List Node)
  | text (s : String)

/-- Is this node an element with the given tag?  `getElementsByTagName`
collects exactly the descendant elements with a matching tag. -/
def hasTag (tag : String) : Node → Bool
  | .elem t _ _ => t = tag
  | .text _ => false

/-- Is this node an element?  The DOM `children` collection (as opposed to
`childNodes`) contains exactly the element children. -/
def isElemNode : Node → Bool
  | .elem _ _ _ => true
  | .text _ => false

/- Step 1 of the rewrite (`// 1. Remove <annotation> tags`): the loop
`while(annotations.length > 0) annotations[0].parentNode?.removeChild(...)`
over the live `getElementsByTagName("annotation")` collection removes every
descendant element tagged `annotation`, together with its subtree. -/
mutual
/-- Rewrite of one (non-annotation) node by step 1. -/
def stripAnnot : Node → Node
  | .text s => .text s
  | .elem t a cs => .elem t a (stripAnnotList cs)
def stripAnnotList : List Node → List Node
  | [] => []
  | c :: cs => (if hasTag "annotation" c then [] else [stripAnnot c]) ++ stripAnnotList cs
end

/- Step 2 of the rewrite (`// 2. Unwrap <semantics> tags`): the loop over
the live `getElementsByTagName("semantics")` collection replaces every
descendant element tagged `semantics` by its children, spliced into the
parent at the wrapper's position, until none is left. -/
/-- The splice of one (already rewritten) node performed by step 2: a
`semantics` element is replaced by its children, any other node is kept. -/
def spliceSem : Node → List Node
  | .elem t a ccs => if t = "semantics" then ccs else [.elem t a ccs]
  | .text s => [.text s]

mutual
/-- Rewrite of one node by step 2. -/
def unwrapSem : Node → Node
  | .text s => .text s
  | .elem t a cs => .elem t a (unwrapSemList cs)
/-- Rewrite of a node list by step 2: every node is rewritten, and a node
that is (after the rewrite of its subtree) a `semantics` element is
replaced by its children, spliced in place. -/
def unwrapSemList : List Node → List Node
  | [] => []
  | c :: cs => spliceSem (unwrapSem c) ++ unwrapSemList cs
end

/-- The splice performed by step 3 on the root's child list: the `while
(mrow.firstChild) mathRoot.insertBefore(mrow.firstChild, mrow)` loop
followed by `mathRoot.removeChild(mrow)` replaces the `mrow` element by
its children in place. -/
def spliceMrow (cs : List Node) : List Node :=
  cs.flatMap fun c =>
    match c with
    | .elem t aa mcs => if t = "mrow" then mcs else [.elem t aa mcs]
    | .text s => [.text s]

/-- Step 3 of the rewrite (`// 3. Unwrap top-level <mrow>`): if the root
has exactly one element child (`mathRoot.children.length === 1`) and that
child is tagged `mrow`, it is replaced in place by its own children.  The
rule applies only at the root and only once. -/
def unwrapTopMrow : Node → Node
  | .elem t a cs =>
    match cs.filter isElemNode with
    | [Node.elem "mrow" _ _] => .elem t a (spliceMrow cs)
    | _ => .elem t a cs
  | .text s => .text s

/-- The full structural normalization applied to the parsed `<math>`
element, in source order: strip annotation elements, unwrap semantics
wrappers, flatten a sole top-level `mrow`. -/
def normalizeTree (n : Node) : Node :=
  unwrapTopMrow (unwrapSem (stripAnnot n))

/-! ## Serialization (`new XMLSerializer().serializeToString`) -/

/-- Escaping of a character in text content. -/
def escTextChar (c : Char) : String :=
  if c = '&' then "&amp;"
  else if c = '<' then "&lt;"
  else if c = '>' then "&gt;"
  else String.singleton c

/-- Escaping of a character in an attribute value. -/
def escAttrChar (c : Char) : String :=
  if c = '&' then "&amp;"
  else if c = '<' then "&lt;"
  else if c = '"' then "&quot;"
  else String.singleton c

/-- Escape text content. -/
def escText (s : String) : String :=
  s.data.foldl (fun acc c => acc ++ escTextChar c) ""

/-- Serialize an attribute list, in document order. -/
def serializeAttrs (attrs : List (String × String)) : String :=
  attrs.foldl (fun acc kv => acc ++ " " ++ kv.1 ++ "=\"" ++ (kv.2.data.foldl (fun a c => a ++ escAttrChar c) "") ++ "\"") ""

/- Deterministic re-serialization of the rewritten tree: elements keep
their tag and attributes; an element without children is emitted
self-closing. -/
mutual
/-- Serialization of one node. -/
def serializeNode : Node → String
  | .text s => escText s
  | .elem t attrs cs =>
    match cs with
    | [] => "<" ++ t ++ serializeAttrs attrs ++ "/>"
    | _ => "<" ++ t ++ serializeAttrs attrs ++ ">" ++ serializeList cs ++ "</" ++ t ++ ">"
def serializeList : List Node → String
  | [] => ""
  | c :: cs => serializeNode c ++ serializeList cs
end

/-! ## The renderer capability and the batch loop -/

/-- Outcome of one `katex.renderToString(latex, {output: 'mathml',
displayMode: isBlock, ...})` call followed by the extraction
`rawRender.match(/<math[\s\S]*?<\/math>/)`:

* `throws`: the call threw (the per-iteration `catch` handles it);
* `noMathRoot`: the call returned markup in which no `<math ... </math>`
  fragment can be located (`mathMatch` is `null`, the `if` is skipped);
* `mathRoot tag attrs children`: the first `<math ... </math>` fragment
  was located and `DOMParser` parsed it into the document element
  `Node.elem tag attrs children` (the regex forces the tag to start with
  `"math"`).

The latex argument is `Option (List Char)`: `none` models the JS value
`undefined` that `match[1] || match[2]` produces for an empty block
capture. -/
inductive RenderOutcome where
  | throws
  | noMathRoot
  | mathRoot (tag : String) (attrs : List (String × String)) (children : List Node)

/-- The renderer capability: an opaque, deterministic function of the
latex payload and display-mode flag. -/
def Renderer : Type :=
  Option (List Char) → Bool → RenderOutcome

/-- The diagnostic emitted by the `catch` handler:
`console.warn("Error converting equation to MathML", e)`. -/
def warnMsg : String :=
  "Error converting equation to MathML"

/-- The normalized fragment contributed by one match, if any: `none` when
the renderer throws or no `<math>` root is found, otherwise the
serialization of the rewritten tree. -/
def fragOf (r : Renderer) (m : RegexMatch) : Option String :=
  match r (latexOf m) (isBlockOf m) with
  | .mathRoot tag attrs cs => some (serializeNode (normalizeTree (.elem tag attrs cs)))
  | _ => none

/-- The diagnostic contributed by one match, if any: the `catch` handler
fires exactly when the renderer call throws. -/
def warnOf (r : Renderer) (m : RegexMatch) : Option String :=
  match r (latexOf m) (isBlockOf m) with
  | .throws => some warnMsg
  | _ => none

/-- The `while` loop of `generateMathML`, processing the regex matches in
order while threading the accumulated output string, the fragment count
and the emitted console warnings:

```
if (count > 0) output += "\n\n";
output += cleanMathML;
count++;
```
-/
def assembleLoop (r : Renderer) : List RegexMatch → String → Nat → List String → String × List String
  | [], output, _, warns => (output, warns)
  | m :: ms, output, count, warns =>
    match r (latexOf m) (isBlockOf m) with
    | .throws => assembleLoop r ms output count (warns ++ [warnMsg])
    | .noMathRoot => assembleLoop r ms output count warns
    | .mathRoot tag attrs cs =>
      assembleLoop r ms
        ((if count > 0 then output ++ "\n\n" else output) ++ serializeNode (normalizeTree (.elem tag attrs cs)))
        (count + 1) warns

/-- The `generateMathML` routine.  `katexPresent` models the
`(window as any).katex` availability test; the first component of the
result is the returned string, the second the sequence of `console.warn`
diagnostics emitted while it ran.  The body never throws: every fallible
step is inside the per-iteration `try`/`catch`. -/
def generateMathML (katexPresent : Bool) (r : Renderer) (markdown : String) : String × List String :=
  if katexPresent then
    let res := assembleLoop r (scanList markdown.data) "" 0 []
    (if res.1 = "" then "No mathematical formulas detected." else res.1, res.2)
  else
    ("KaTeX library not found.", [])

/-- Joining with exactly one blank line (two newline characters) between
consecutive fragments. -/
def joinBlank : List String → String
  | [] => ""
  | [f] => f
  | f :: g :: fs => f ++ "\n\n" ++ joinBlank (g :: fs)

/-! ## Tree predicates and rewrite lemmas -/

mutual
/-- No element with the given tag occurs in this node, the node itself
included. -/
def tagFreeN (tag : String) : Node → Bool
  | .text _ => true
  | .elem t _ cs => (t != tag) && tagFreeL tag cs
/-- No element with the given tag occurs in this node list. -/
def tagFreeL (tag : String) : List Node → Bool
  | [] => true
  | c :: cs => tagFreeN tag c && tagFreeL tag cs
end

theorem tagFreeL_append (tag : String) : ∀ xs ys : List Node,
    tagFreeL tag (xs ++ ys) = (tagFreeL tag xs && tagFreeL tag ys) := by
  intro xs ys
  induction xs with
  | nil => simp [tagFreeL]
  | cons c cs ih => simp [tagFreeL, ih, Bool.and_assoc]

mutual
/-- Step 1 removes every annotation element: its result contains none,
provided the node it is applied to is not itself tagged `annotation`
(the root never is: `getElementsByTagName` only inspects descendants, and
the extraction regex forces the root tag to start with `math`). -/
theorem stripAnnot_free : ∀ (n : Node), hasTag "annotation" n = false →
    tagFreeN "annotation" (stripAnnot n) = true
  | .text _, _ => rfl
  | .elem t a cs, h => by
    simp only [hasTag, decide_eq_false_iff_not] at h
    simp only [stripAnnot, tagFreeN, Bool.and_eq_true, bne_iff_ne, ne_eq]
    exact ⟨h, stripAnnotList_free cs⟩
/-- List version of `stripAnnot_free`. -/
theorem stripAnnotList_free : ∀ (cs : List Node), tagFreeL "annotation" (stripAnnotList cs) = true
  | [] => rfl
  | c :: cs => by
    by_cases hc : hasTag "annotation" c = true
    · simp only [stripAnnotList, hc, if_true, List.nil_append]
      exact stripAnnotList_free cs
    · simp only [stripAnnotList, Bool.not_eq_true] at hc ⊢
      simp only [hc, if_false, List.singleton_append, tagFreeL, Bool.and_eq_true]
      exact ⟨stripAnnot_free c hc, stripAnnotList_free cs⟩
end

/-- The step-2 splice of a node free of a tag yields a list free of it. -/
theorem spliceSem_free (tag : String) : ∀ (n : Node), tagFreeN tag n = true →
    tagFreeL tag (spliceSem n) = true := by
  intro n h
  match n with
  | .text s => simp [spliceSem, tagFreeL, tagFreeN]
  | .elem t a ccs =>
    simp only [tagFreeN, Bool.and_eq_true] at h
    by_cases ht : t = "semantics"
    · simpa [spliceSem, ht] using h.2
    · simp only [spliceSem, ht, if_false, tagFreeL, tagFreeN, Bool.and_eq_true, Bool.and_true]
      exact ⟨h.1, h.2⟩

mutual
/-- Step 2 only removes or splices nodes, so a tag absent before it is
absent after it. -/
theorem unwrapSem_free (tag : String) : ∀ (n : Node), tagFreeN tag n = true →
    tagFreeN tag (unwrapSem n) = true
  | .text _, _ => rfl
  | .elem t a cs, h => by
    simp only [tagFreeN, Bool.and_eq_true] at h
    simp only [unwrapSem, tagFreeN, Bool.and_eq_true]
    exact ⟨h.1, unwrapSemList_free tag cs h.2⟩
/-- List version of `unwrapSem_free`. -/
theorem unwrapSemList_free (tag : String) : ∀ (cs : List Node), tagFreeL tag cs = true →
    tagFreeL tag (unwrapSemList cs) = true
  | [], _ => rfl
  | c :: cs, h => by
    simp only [tagFreeL, Bool.and_eq_true] at h
    simp only [unwrapSemList, tagFreeL_append, Bool.and_eq_true]
    exact ⟨spliceSem_free tag (unwrapSem c) (unwrapSem_free tag c h.1),
      unwrapSemList_free tag cs h.2⟩
end

/-- The top-level `mrow` splice only replaces an element by its own
children, so a tag absent before it is absent after it. -/
theorem spliceMrow_free (tag : String) : ∀ (cs : List Node), tagFreeL tag cs = true →
    tagFreeL tag (spliceMrow cs) = true := by
  intro cs
  induction cs with
  | nil => intro h; exact h
  | cons c cs ih =>
    intro h
    simp only [tagFreeL, Bool.and_eq_true] at h
    simp only [spliceMrow, List.flatMap_cons] at ih ⊢
    match c, h with
    | .text s, h =>
      simp only [List.singleton_append, tagFreeL, Bool.and_eq_true]
      exact ⟨h.1, ih h.2⟩
    | .elem t a ccs, h =>
      by_cases ht : t = "mrow"
      · simp only [ht, if_true, tagFreeL_append, Bool.and_eq_true]
        simp only [tagFreeN, Bool.and_eq_true] at h
        exact ⟨h.1.2, ih h.2⟩
      · simp only [ht, if_false, List.singleton_append, tagFreeL, Bool.and_eq_true]
        exact ⟨h.1, ih h.2⟩

mutual
/-- Step 1 is the identity on a tree containing no annotation element. -/
theorem stripAnnot_id : ∀ (n : Node), tagFreeN "annotation" n = true → stripAnnot n = n
  | .text _, _ => rfl
  | .elem t a cs, h => by
    simp only [tagFreeN, Bool.and_eq_true] at h
    simp only [stripAnnot]
    rw [stripAnnotList_id cs h.2]
/-- List version of `stripAnnot_id`. -/
theorem stripAnnotList_id : ∀ (cs : List Node), tagFreeL "annotation" cs = true →
    stripAnnotList cs = cs
  | [], _ => rfl
  | c :: cs, h => by
    simp only [tagFreeL, Bool.and_eq_true] at h
    have hc : hasTag "annotation" c = false := by
      match c, h.1 with
      | .text s, _ => rfl
      | .elem t a ccs, h1 =>
        simp only [tagFreeN, Bool.and_eq_true, bne_iff_ne, ne_eq] at h1
        simp only [hasTag, decide_eq_false_iff_not]
        exact h1.1
    simp only [stripAnnotList, hc]
    rw [stripAnnot_id c h.1, stripAnnotList_id cs h.2]
    simp
end

mutual
/-- Step 2 is the identity on a tree containing no semantics element. -/
theorem unwrapSem_id : ∀ (n : Node), tagFreeN "semantics" n = true → unwrapSem n = n
  | .text _, _ => rfl
  | .elem t a cs, h => by
    simp only [tagFreeN, Bool.and_eq_true] at h
    simp only [unwrapSem]
    rw [unwrapSemList_id cs h.2]
/-- List version of `unwrapSem_id`. -/
theorem unwrapSemList_id : ∀ (cs : List Node), tagFreeL "semantics" cs = true →
    unwrapSemList cs = cs
  | [], _ => rfl
  | c :: cs, h => by
    simp only [tagFreeL, Bool.and_eq_true] at h
    simp only [unwrapSemList]
    rw [unwrapSem_id c h.1, unwrapSemList_id cs h.2]
    match c, h.1 with
    | .text s, _ => rfl
    | .elem t a ccs, h1 =>
      simp only [tagFreeN, Bool.and_eq_true, bne_iff_ne, ne_eq] at h1
      simp only [spliceSem, h1.1, if_false, List.singleton_append]
end

/-- Step 3 keeps the root element's tag and attributes. -/
theorem unwrapTopMrow_elem (t : String) (a : List (String × String)) (cs : List Node) :
    ∃ cs', unwrapTopMrow (.elem t a cs) = .elem t a cs' := by
  simp only [unwrapTopMrow]
  split
  · exact ⟨spliceMrow cs, rfl⟩
  · exact ⟨cs, rfl⟩

/-- The normalization of an element keeps an element root with the same
tag and attributes: each of the three steps does. -/
theorem normalizeTree_elem (t : String) (a : List (String × String)) (cs : List Node) :
    ∃ cs', normalizeTree (.elem t a cs) = .elem t a cs' := by
  have h1 : stripAnnot (.elem t a cs) = .elem t a (stripAnnotList cs) := rfl
  have h2 : unwrapSem (.elem t a (stripAnnotList cs)) =
      .elem t a (unwrapSemList (stripAnnotList cs)) := rfl
  simp only [normalizeTree, h1, h2]
  exact unwrapTopMrow_elem t a (unwrapSemList (stripAnnotList cs))

/-- A string starting with a fixed non-empty literal is not empty. -/
theorem lt_append_ne_empty (s : String) : "<" ++ s ≠ "" := by
  intro h
  have hd := congrArg String.data h
  rw [String.data_append] at hd
  have h1 : ("<" : String).data = ['<'] := rfl
  have h2 : ("" : String).data = [] := rfl
  rw [h1, h2] at hd
  simp at hd

/-- Appending to a non-empty string keeps it non-empty. -/
theorem append_ne_empty_left {s : String} (hs : s ≠ "") (x : String) : s ++ x ≠ "" := by
  intro h
  have hd := congrArg String.data h
  rw [String.data_append] at hd
  have h2 : ("" : String).data = [] := rfl
  rw [h2] at hd
  rcases List.append_eq_nil.mp hd with ⟨hs', _⟩
  exact hs (String.ext (hs'.trans rfl))

/-- The serialization of an element is never the empty string: it starts
with the character `<`. -/
theorem serializeNode_elem_ne (t : String) (a : List (String × String)) (cs : List Node) :
    serializeNode (.elem t a cs) ≠ "" := by
  match cs with
  | [] =>
    have he : serializeNode (.elem t a []) = "<" ++ (t ++ (serializeAttrs a ++ "/>")) := by
      have h0 : serializeNode (.elem t a []) = "<" ++ t ++ serializeAttrs a ++ "/>" := rfl
      rw [h0, String.append_assoc, String.append_assoc]
    rw [he]
    exact lt_append_ne_empty _
  | c :: cs' =>
    have he : serializeNode (.elem t a (c :: cs')) =
        "<" ++ (t ++ (serializeAttrs a ++ (">" ++ (serializeList (c :: cs') ++ ("</" ++ (t ++ ">")))))) := by
      have h0 : serializeNode (.elem t a (c :: cs')) =
          "<" ++ t ++ serializeAttrs a ++ ">" ++ serializeList (c :: cs') ++ "</" ++ t ++ ">" := rfl
      rw [h0]
      simp only [String.append_assoc]
    rw [he]
    exact lt_append_ne_empty _

/-- The fragment contributed by a successful match is never empty. -/
theorem fragOf_ne_empty (r : Renderer) (m : RegexMatch) :
    ∀ s, fragOf r m = some s → s ≠ "" := by
  intro s h
  unfold fragOf at h
  rcases hr : r (latexOf m) (isBlockOf m) with _ | _ | ⟨tag, attrs, cs⟩ <;> rw [hr] at h
  · simp at h
  · simp at h
  · simp only [Option.some.injEq] at h
    subst h
    obtain ⟨cs', hcs'⟩ := normalizeTree_elem tag attrs cs
    rw [hcs']
    exact serializeNode_elem_ne tag attrs cs'

/-! ## The batch loop, characterized -/

/-- The output accumulated by the loop over a list of fragments, starting
from a given fragment count: a `"\n\n"` separator precedes every fragment
except one emitted at count `0`. -/
def glue (count : Nat) : List String → String
  | [] => ""
  | f :: fs => (if count > 0 then "\n\n" else "") ++ f ++ glue (count + 1) fs

theorem glue_pos : ∀ (fs : List String) (c : Nat),
    glue (c + 1) fs = if fs = [] then "" else "\n\n" ++ joinBlank fs := by
  intro fs
  induction fs with
  | nil => intro c; rfl
  | cons f fs ih =>
    intro c
    simp only [glue, ih (c + 1)]
    have : (if c + 1 > 0 then "\n\n" else "") = "\n\n" := by simp
    rw [this]
    match fs with
    | [] => simp [joinBlank, String.append_empty]
    | g :: fs' =>
      simp only [joinBlank, if_neg (by simp : ¬g :: fs' = [])]
      simp [String.append_assoc]

theorem glue_zero (fs : List String) : glue 0 fs = joinBlank fs := by
  match fs with
  | [] => rfl
  | f :: fs' =>
    simp only [glue, glue_pos fs' 0]
    match fs' with
    | [] => simp [joinBlank, String.append_empty, String.empty_append]
    | g :: fs'' =>
      simp only [if_neg (by simp : ¬g :: fs'' = []), joinBlank]
      simp [String.empty_append, String.append_assoc]

/-- Complete characterization of the `while` loop: the final output is the
accumulated output followed by the glued successful fragments in match
order, and the warnings are the accumulated warnings followed by one
`console.warn` per throwing renderer call, in match order. -/
theorem assembleLoop_eq (r : Renderer) : ∀ (ms : List RegexMatch) (out : String) (count : Nat)
    (ws : List String),
    assembleLoop r ms out count ws =
      (out ++ glue count (ms.filterMap (fragOf r)), ws ++ ms.filterMap (warnOf r)) := by
  intro ms
  induction ms with
  | nil => intro out count ws; simp [assembleLoop, glue, String.append_empty]
  | cons m ms ih =>
    intro out count ws
    rcases hr : r (latexOf m) (isBlockOf m) with _ | _ | ⟨tag, attrs, cs⟩
    · have hfrag : fragOf r m = none := by unfold fragOf; rw [hr]
      have hwarn : warnOf r m = some warnMsg := by unfold warnOf; rw [hr]
      simp only [assembleLoop, hr, ih, List.filterMap_cons, hfrag, hwarn]
      simp [List.append_assoc]
    · have hfrag : fragOf r m = none := by unfold fragOf; rw [hr]
      have hwarn : warnOf r m = none := by unfold warnOf; rw [hr]
      simp only [assembleLoop, hr, ih, List.filterMap_cons, hfrag, hwarn]
    · have hfrag : fragOf r m = some (serializeNode (normalizeTree (.elem tag attrs cs))) := by
        unfold fragOf; rw [hr]
      have hwarn : warnOf r m = none := by unfold warnOf; rw [hr]
      simp only [assembleLoop, hr, ih, List.filterMap_cons, hfrag, hwarn, Prod.mk.injEq]
      refine ⟨?_, trivial⟩
      simp only [glue]
      by_cases hc : count > 0
      · simp only [if_pos hc, String.append_assoc]
      · simp only [if_neg hc, String.empty_append, String.append_assoc]

/-- Complete characterization of `generateMathML` when the renderer
capability is present: the returned string is the blank-line join of the
successful fragments in match order, or the sentinel when there is none,
and the diagnostics are one warning per throwing renderer call. -/
theorem generateMathML_spec (r : Renderer) (md : String) :
    generateMathML true r md =
      (if (scanList md.data).filterMap (fragOf r) = []
        then "No mathematical formulas detected."
        else joinBlank ((scanList md.data).filterMap (fragOf r)),
       (scanList md.data).filterMap (warnOf r)) := by
  have h := assembleLoop_eq r (scanList md.data) "" 0 []
  simp only [generateMathML, if_pos rfl, h, String.empty_append, List.nil_append, glue_zero]
  rcases hfs : (scanList md.data).filterMap (fragOf r) with _ | ⟨f, fs'⟩
  · simp [joinBlank]
  · have hf : f ≠ "" := by
      have := List.mem_filterMap.mp (hfs ▸ List.mem_cons_self f fs')
      obtain ⟨m, _, hm⟩ := this
      exact fragOf_ne_empty r m f hm
    have hne : joinBlank (f :: fs') ≠ "" := by
      match fs' with
      | [] => exact hf
      | g :: fs'' =>
        have he : joinBlank (f :: g :: fs'') = f ++ "\n\n" ++ joinBlank (g :: fs'') := rfl
        rw [he, String.append_assoc]
        exact append_ne_empty_left hf _
    simp [hne]

/-! ## Concrete renderer test doubles -/

/-- A renderer that always succeeds with a fixed math root. -/
def okRenderer : Renderer :=
  fun _ _ => RenderOutcome.mathRoot "math" [] [Node.text "R"]

/-- A renderer that always throws. -/
def throwingRenderer : Renderer :=
  fun _ _ => RenderOutcome.throws

/-- A renderer that always returns markup containing no math root. -/
def noRootRenderer : Renderer :=
  fun _ _ => RenderOutcome.noMathRoot

/-- A renderer that throws exactly on the payload `"b"` and succeeds
everywhere else. -/
def failOnBRenderer : Renderer :=
  fun lx _ =>
    if lx = some ['b'] then RenderOutcome.throws
    else RenderOutcome.mathRoot "math" [] [Node.text "R"]

/-- When every element of a list is mapped to `some`, `filterMap` keeps
the length. -/
theorem filterMap_length_of_isSome {α β : Type} (f : α → Option β) :
    ∀ l : List α, (∀ a ∈ l, (f a).isSome = true) → (l.filterMap f).length = l.length := by
  intro l
  induction l with
  | nil => intro _; rfl
  | cons a l ih =>
    intro h
    rcases hf : f a with _ | b
    · have := h a (List.mem_cons_self a l)
      rw [hf] at this
      simp at this
    · simp only [List.filterMap_cons, hf, List.length_cons]
      rw [ih (fun x hx => h x (List.mem_cons_of_mem a hx))]

/-! ## The claims -/

/-- Claim C1, counterexample at N = 0: on an input document with no math
span, every renderer call vacuously succeeds with markup containing a
math root, yet the assembled output is the sentinel string, not the join
of the zero normalized fragments (which is the empty string). -/
theorem c1_counterexample :
    scanList "hello".data = [] ∧
    (generateMathML true okRenderer "hello").1 = "No mathematical formulas detected." ∧
    joinBlank ((scanList "hello".data).filterMap (fragOf okRenderer)) = "" ∧
    (generateMathML true okRenderer "hello").1 ≠ "" := by
  exact ⟨by decide, rfl, rfl, by decide⟩

/-- Claim C1 (amended): for every input document in which the scanner
finds N ≥ 1 math spans and every renderer call succeeds with markup
containing a math root, the assembled output string equals the N
normalized fragments joined with exactly one blank line (two newline
characters) between consecutive fragments, in the same left-to-right
order the spans appear in the source text. -/
theorem c1_order_preservation (r : Renderer) (md : String)
    (hne : scanList md.data ≠ [])
    (hok : ∀ m ∈ scanList md.data, (fragOf r m).isSome = true) :
    (generateMathML true r md).1 = joinBlank ((scanList md.data).filterMap (fragOf r)) ∧
    ((scanList md.data).filterMap (fragOf r)).length = (scanList md.data).length := by
  have hlen := filterMap_length_of_isSome (fragOf r) (scanList md.data) hok
  have hfe : (scanList md.data).filterMap (fragOf r) ≠ [] := by
    intro h0
    rw [h0] at hlen
    exact hne (List.length_eq_zero.mp hlen.symm)
  have hspec := generateMathML_spec r md
  constructor
  · simp only [hspec, if_neg hfe]
  · exact hlen

/-- Witness for C1 at the input `"$x$ and $$y$$"` (one inline span, one
block span) with the always-successful renderer. -/
theorem c1_order_preservation_witness :
    (generateMathML true okRenderer "$x$ and $$y$$").1 =
      joinBlank ((scanList "$x$ and $$y$$".data).filterMap (fragOf okRenderer)) ∧
    ((scanList "$x$ and $$y$$".data).filterMap (fragOf okRenderer)).length =
      (scanList "$x$ and $$y$$".data).length :=
  c1_order_preservation okRenderer "$x$ and $$y$$" (by decide) (by decide)

/-- Claim C2, counterexample at a batch whose only span fails: the claim
(with its vacuous "all other spans succeed" hypothesis) predicts the join
of the zero succeeded fragments, i.e. the empty string, but the code
returns the sentinel. -/
theorem c2_counterexample :
    scanList "$$a$$".data = [RegexMatch.block ['a']] ∧
    (generateMathML true throwingRenderer "$$a$$").1 = "No mathematical formulas detected." ∧
    (generateMathML true throwingRenderer "$$a$$").1 ≠ "" := by
  exact ⟨by decide, rfl, by decide⟩

/-- Claim C2 (amended): if the renderer call for span k throws, every
other span succeeds with markup containing a math root, and at least one
other span exists, then the assembled output equals the join of the
succeeded fragments in original source order with span k omitted — no
placeholder and no extra blank-line artifact is inserted for the failed
span, and the batch is not aborted. -/
theorem c2_failure_isolation (r : Renderer) (md : String) (pre post : List RegexMatch)
    (mf : RegexMatch)
    (hscan : scanList md.data = pre ++ mf :: post)
    (hfail : r (latexOf mf) (isBlockOf mf) = RenderOutcome.throws)
    (hok : ∀ m ∈ pre ++ post, (fragOf r m).isSome = true)
    (hne : pre ++ post ≠ []) :
    (generateMathML true r md).1 = joinBlank ((pre ++ post).filterMap (fragOf r)) := by
  have hmf : fragOf r mf = none := by unfold fragOf; rw [hfail]
  have hsplit2 : (scanList md.data).filterMap (fragOf r) = (pre ++ post).filterMap (fragOf r) := by
    rw [hscan, List.filterMap_append, List.filterMap_cons, hmf, List.filterMap_append]
  have hlen := filterMap_length_of_isSome (fragOf r) (pre ++ post) hok
  have hfe : (pre ++ post).filterMap (fragOf r) ≠ [] := by
    intro h0
    rw [h0] at hlen
    exact hne (List.length_eq_zero.mp hlen.symm)
  have hspec := generateMathML_spec r md
  simp only [hspec, hsplit2, if_neg hfe]

/-- Witness for C2: Scenario D, input `"$$a$$ $$b$$"` with a renderer
that throws exactly on the second span. -/
theorem c2_failure_isolation_witness :
    (generateMathML true failOnBRenderer "$$a$$ $$b$$").1 =
      joinBlank (([RegexMatch.block ['a']] ++ ([] : List RegexMatch)).filterMap (fragOf failOnBRenderer)) :=
  c2_failure_isolation failOnBRenderer "$$a$$ $$b$$" [RegexMatch.block ['a']] []
    (RegexMatch.block ['b']) (by decide) rfl (by decide) (by decide)

/-- Claim C3: for every input document, if the scanner finds zero math
spans, or every found span fails normalization (the renderer throws or
its markup contains no math root), the assembler returns the fixed
sentinel string, which is not the empty string; the routine returns
normally (its embedding is a total function). -/
theorem c3_empty_sentinel (r : Renderer) (md : String)
    (h : scanList md.data = [] ∨ ∀ m ∈ scanList md.data, fragOf r m = none) :
    (generateMathML true r md).1 = "No mathematical formulas detected." ∧
    (generateMathML true r md).1 ≠ "" := by
  have hfe : (scanList md.data).filterMap (fragOf r) = [] := by
    rcases h with h | h
    · rw [h]; rfl
    · exact List.filterMap_eq_nil_iff.mpr h
  have hspec := generateMathML_spec r md
  constructor
  · simp only [hspec, if_pos hfe]
  · simp only [hspec, if_pos hfe]
    decide

/-- Witness for C3 at an input with no dollar sign at all. -/
theorem c3_empty_sentinel_witness :
    (generateMathML true throwingRenderer "hello").1 = "No mathematical formulas detected." ∧
    (generateMathML true throwingRenderer "hello").1 ≠ "" :=
  c3_empty_sentinel throwingRenderer "hello" (Or.inl (by decide))

/-- Claim C4: for every span whose renderer output is of the shape
`<math><semantics><mrow>X</mrow><annotation>Y</annotation></semantics></math>`
(with `X` presentation content, i.e. free of further annotation or
semantics elements), normalization produces `<math>X</math>`: the
annotation element is removed, the semantics wrapper is replaced by its
remaining children, and the sole top-level mrow grouping is flattened
into the math root, preserving child order. -/
theorem c4_semantics_unwrap (a sa ma aa : List (String × String)) (X Y : List Node)
    (hA : tagFreeL "annotation" X = true) (hS : tagFreeL "semantics" X = true) :
    normalizeTree (.elem "math" a
        [.elem "semantics" sa [.elem "mrow" ma X, .elem "annotation" aa Y]]) =
      .elem "math" a X := by
  have h1 : stripAnnot (.elem "math" a
        [.elem "semantics" sa [.elem "mrow" ma X, .elem "annotation" aa Y]]) =
      .elem "math" a [.elem "semantics" sa [.elem "mrow" ma (stripAnnotList X)]] := rfl
  have hX1 : stripAnnotList X = X := stripAnnotList_id X hA
  have h2 : unwrapSem (.elem "math" a [.elem "semantics" sa [.elem "mrow" ma X]]) =
      .elem "math" a [.elem "mrow" ma (unwrapSemList X)] := rfl
  have hX2 : unwrapSemList X = X := unwrapSemList_id X hS
  have h3 : unwrapTopMrow (.elem "math" a [.elem "mrow" ma X]) =
      .elem "math" a (spliceMrow [.elem "mrow" ma X]) := rfl
  simp only [normalizeTree, h1, hX1, h2, hX2, h3, spliceMrow, List.flatMap_cons,
    List.flatMap_nil, List.append_nil, if_true]

/-- Witness for C4 with `X = <mi>x</mi>` and `Y` the raw source text. -/
theorem c4_semantics_unwrap_witness :
    normalizeTree (.elem "math" []
        [.elem "semantics" [] [.elem "mrow" [] [.elem "mi" [] [.text "x"]],
          .elem "annotation" [("encoding", "application/x-tex")] [.text "x^2"]]]) =
      .elem "math" [] [.elem "mi" [] [.text "x"]] :=
  c4_semantics_unwrap [] [] [] [("encoding", "application/x-tex")]
    [.elem "mi" [] [.text "x"]] [.text "x^2"] rfl rfl

/-- Claim C5: for every renderer output containing one or more annotation
elements at any depth in the markup tree (whose root, being the extracted
`<math ...>` element, is itself not an annotation element), none of those
annotation elements appear in the normalized output of that span. -/
theorem c5_annot_stripping (tag : String) (a : List (String × String)) (cs : List Node)
    (hroot : tag ≠ "annotation")
    (_hhas : tagFreeL "annotation" cs = false) :
    tagFreeN "annotation" (normalizeTree (.elem tag a cs)) = true := by
  have h1 : tagFreeN "annotation" (stripAnnot (.elem tag a cs)) = true := by
    apply stripAnnot_free
    simp only [hasTag, decide_eq_false_iff_not]
    exact hroot
  have h2 := unwrapSem_free "annotation" _ h1
  have h3 : ∀ n : Node, tagFreeN "annotation" n = true →
      tagFreeN "annotation" (unwrapTopMrow n) = true := by
    intro n hn
    match n with
    | .text s => exact hn
    | .elem t aa ccs =>
      simp only [unwrapTopMrow]
      split
      · simp only [tagFreeN, Bool.and_eq_true] at hn ⊢
        exact ⟨hn.1, spliceMrow_free _ ccs hn.2⟩
      · exact hn
  exact h3 _ h2

/-- Witness for C5 on a math root holding one annotation element. -/
theorem c5_annot_stripping_witness :
    tagFreeN "annotation" (normalizeTree (.elem "math" []
      [.elem "annotation" [] [.text "x"]])) = true :=
  c5_annot_stripping "math" [] [.elem "annotation" [] [.text "x"]] (by decide) rfl

/-- Claim C6: scanning the text `"$$a+b$$"` yields exactly one span, which
is a block span with payload `"a+b"`; in general the single left-to-right
scan prefers the block form: a `"$$"` opener whose payload (free of `'$'`)
is closed by `"$$"` produces one block match and the scan resumes after
the closing delimiter, so the pair is never re-interpreted as inline
matches. -/
theorem c6_block_precedence :
    scanList "$$a+b$$".data = [RegexMatch.block ['a', '+', 'b']] ∧
    isBlockOf (RegexMatch.block ['a', '+', 'b']) = true ∧
    latexOf (RegexMatch.block ['a', '+', 'b']) = some ['a', '+', 'b'] ∧
    (∀ p t : List Char, '$' ∉ p →
      scanList ('$' :: '$' :: (p ++ '$' :: '$' :: t)) = RegexMatch.block p :: scanList t) := by
  refine ⟨by decide, by decide, by decide, ?_⟩
  intro p t hp
  exact scanList_block (splitDollar2_append t hp)

/-- Witness for C6's general part at payload `"x"` and tail `" $y$"`. -/
theorem c6_block_precedence_witness :
    scanList ('$' :: '$' :: (['x'] ++ '$' :: '$' :: " $y$".data)) =
      RegexMatch.block ['x'] :: scanList " $y$".data :=
  c6_block_precedence.2.2.2 ['x'] " $y$".data (by decide)

/-- Claim C7, evaluation at the failing input `"$$$$"`: the regex matches
the block alternative with an empty capture group, but the code then
computes `latex = match[1] || match[2]`, and the empty string being falsy
this yields `undefined` (`none`), and `isBlock = !!match[1]` yields
`false` — whereas the claim requires `rawLatex = ""` with
`isBlock = true`. -/
theorem c7_empty_block_divergence :
    scanList "$$$$".data = [RegexMatch.block []] ∧
    latexOf (RegexMatch.block []) = none ∧
    isBlockOf (RegexMatch.block []) = false ∧
    ¬(latexOf (RegexMatch.block []) = some [] ∧ isBlockOf (RegexMatch.block []) = true) := by
  exact ⟨by decide, rfl, rfl, by decide⟩

/-- Claim C8, counterexample: a span that fails by extraction (renderer
succeeded, no math root in its markup) produces no diagnostic at all —
the warning log stays empty — while a span that fails by a renderer throw
produces one console warning; the two failure kinds are not handled the
same way and the extraction failure is silently swallowed. -/
theorem c8_counterexample :
    (generateMathML true noRootRenderer "$x$").2 = [] ∧
    (generateMathML true throwingRenderer "$x$").2 = ["Error converting equation to MathML"] ∧
    (generateMathML true noRootRenderer "$x$").1 = "No mathematical formulas detected." := by
  exact ⟨rfl, rfl, rfl⟩

/-- Claim C8 (amended): a span whose renderer call throws is caught and
reported via exactly one console warning, in match order; a span whose
rendered markup has no math root is skipped silently, with no diagnostic;
in both cases the failed span is excluded from the output and the batch
continues, the returned string being the join of the successful fragments
(or the sentinel).  The returned value itself carries no failure
information. -/
theorem c8_failure_reporting (r : Renderer) (md : String) :
    (generateMathML true r md).2 = (scanList md.data).filterMap (warnOf r) ∧
    (∀ m : RegexMatch, r (latexOf m) (isBlockOf m) = RenderOutcome.noMathRoot →
      warnOf r m = none) ∧
    (∀ m : RegexMatch, r (latexOf m) (isBlockOf m) = RenderOutcome.throws →
      warnOf r m = some warnMsg) ∧
    (generateMathML true r md).1 =
      (if (scanList md.data).filterMap (fragOf r) = []
        then "No mathematical formulas detected."
        else joinBlank ((scanList md.data).filterMap (fragOf r))) := by
  have hspec := generateMathML_spec r md
  refine ⟨by simp only [hspec], ?_, ?_, by simp only [hspec]⟩
  · intro m hm
    unfold warnOf
    rw [hm]
  · intro m hm
    unfold warnOf
    rw [hm]

/-- Witness for C8's per-kind diagnostics at a concrete inline match. -/
theorem c8_failure_reporting_witness :
    warnOf noRootRenderer (RegexMatch.inl ['x']) = none ∧
    warnOf throwingRenderer (RegexMatch.inl ['x']) = some warnMsg :=
  ⟨(c8_failure_reporting noRootRenderer "$x$").2.1 (RegexMatch.inl ['x']) rfl,
   (c8_failure_reporting throwingRenderer "$x$").2.2.1 (RegexMatch.inl ['x']) rfl⟩

/-- Claim C9, counterexample: with the renderer capability absent the
routine returns the fixed string `"KaTeX library not found."` — a normal
string return value (the embedding of the routine is a total function;
the source reaches this case through a plain `return`), not a propagated
hard failure. -/
theorem c9_counterexample :
    generateMathML false throwingRenderer "$$a$$" = ("KaTeX library not found.", []) ∧
    "KaTeX library not found." ≠ "No mathematical formulas detected." ∧
    "KaTeX library not found." ≠ "" := by
  exact ⟨rfl, by decide, by decide⟩

/-- Claim C9 (amended): when the renderer capability is unavailable, the
routine returns the fixed error string `"KaTeX library not found."` for
every input, without scanning or rendering and with no diagnostics; this
string is distinct from the no-math sentinel, but it is returned, not
thrown. -/
theorem c9_missing_renderer (r : Renderer) (md : String) :
    generateMathML false r md = ("KaTeX library not found.", []) ∧
    "KaTeX library not found." ≠ "No mathematical formulas detected." := by
  exact ⟨rfl, by decide⟩

/-- Claim C10: every inline (single-dollar) match the scanner yields has a
non-empty payload containing no `'$'` character; and scanning `"$$"`
alone yields no span at all. -/
theorem c10_inline_payload :
    (∀ (md : String) (p : List Char), RegexMatch.inl p ∈ scanList md.data →
      p ≠ [] ∧ '$' ∉ p) ∧
    scanList "$$".data = [] := by
  refine ⟨?_, by decide⟩
  intro md p h
  exact scanFuel_inl_payload _ _ p h

/-- Witness for C10 at the input `"$a$"`. -/
theorem c10_inline_payload_witness :
    (['a'] : List Char) ≠ [] ∧ '$' ∉ (['a'] : List Char) :=
  c10_inline_payload.1 "$a$" ['a'] (by decide)
